import Mathlib

/-!
Shallow embedding of the note-ls markdown language server core
(`language-server/src/main.rs`): the document registry (`Files`), the
current-file pointer, the preview pushes, cursor-word extraction
(`get_current_word`) and wiki-link completion (`completion`).

Modelling conventions:
* Text is `List Char`; Rust byte indices are read as character indices
  (they coincide on the ASCII inputs of interest).
* A Rust panic (out-of-bounds string slice, failed `unwrap`, `todo!`,
  a failing `debug_assert!`) is an explicit `panic` outcome.
* The `WalkDir` filesystem traversal is a parameter of `completion`:
  `walk root` is the list of entries (files and directories, in traversal
  order, after `filter_map(|e| e.ok())`) the walk yields under `root`,
  each entry a path given as its list of components.
* `preview_server.send` is modelled as appending the sent text to the
  `pushes` list of the state (the spec assumes no external-renderer
  failure, so the `expect` never fires).
-/

namespace NoteLs

/-- Outcome of Rust code that can panic. -/
inductive RustOutcome (α : Type) where
  | ok : α → RustOutcome α
  | panic : RustOutcome α
  deriving DecidableEq, Repr

/-- `lsp_types::Position`: zero-based line and character (u32 in the
source; overflow is never exercised, so plain naturals). -/
structure Position where
  line : Nat
  character : Nat
  deriving DecidableEq, Repr

/-- Split at every newline character, keeping every piece (an empty final
piece marks a trailing newline). -/
def splitOnNl : List Char → List (List Char)
  | [] => [[]]
  | c :: cs =>
    if c = '\n' then [] :: splitOnNl cs
    else
      match splitOnNl cs with
      | [] => [[c]]
      | l :: ls => (c :: l) :: ls

/-- Drop one trailing carriage return from a newline-terminated piece
(`str::lines` treats a `\r\n` sequence as a single line terminator). -/
def stripTrailingCr (l : List Char) : List Char :=
  if l.getLast? = some '\r' then l.dropLast else l

/-- Rust `str::lines`: pieces between newline terminators, `\r` stripped
before a terminator, and no empty piece after a final terminator. -/
def rustLines (s : List Char) : List (List Char) :=
  let parts := splitOnNl s
  let parts2 := parts.dropLast.map stripTrailingCr ++ [parts.getLastD []]
  if parts2.getLast? = some [] then parts2.dropLast else parts2

/-- `get_current_word` from `main.rs`: the word in `document` at
`cursor_pos`, cut off at the cursor.  The `?` on `lines().nth` makes an
out-of-range line index return `none`; the slice `line[..character]`
panics when `character` exceeds the length of the line.  `is_whitespace`
is modelled by `Char.isWhitespace` (they agree on ASCII). -/
def get_current_word (document : List Char) (cursor_pos : Position) :
    RustOutcome (Option (List Char)) :=
  match (rustLines document)[cursor_pos.line]? with
  | none => .ok none
  | some line =>
    let character := cursor_pos.character
    if character ≤ line.length then
      let backwards_chars :=
        ((line.take character).reverse.takeWhile (fun c => !c.isWhitespace)).length
      let start_word := character - backwards_chars
      .ok (some ((line.take character).drop start_word))
    else .panic

/-- `File`: the stored text of one open document. -/
structure File where
  content : List Char
  deriving DecidableEq, Repr

/-- `File::new`. -/
def File.new (content : List Char) : File := ⟨content⟩

/-- `File::overwrite`: replace the current content wholesale. -/
def File.overwrite (_self : File) (new_content : List Char) : File :=
  ⟨new_content⟩

/-- A document URI; the registry keys on the whole value and `Url::path`
reads the path, kept as its list of components (`[]` stands for a path
that is empty or a bare root, whose `parent()` is `None`). -/
structure Url where
  path : List String
  deriving DecidableEq, Repr

/-- `HashMap::insert` on an association list: replace the value bound to
an equal key, else append the new binding. -/
def insertPair : List (Url × File) → Url → File → List (Url × File)
  | [], uri, f => [(uri, f)]
  | (k, v) :: rest, uri, f =>
    if k = uri then (uri, f) :: rest else (k, v) :: insertPair rest uri f

/-- `HashMap::get`. -/
def lookupPair : List (Url × File) → Url → Option File
  | [], _ => none
  | (k, v) :: rest, uri => if k = uri then some v else lookupPair rest uri

/-- `HashMap::remove`. -/
def erasePair : List (Url × File) → Url → List (Url × File)
  | [], _ => []
  | (k, v) :: rest, uri => if k = uri then rest else (k, v) :: erasePair rest uri

/-- `Files`: the document registry (`HashMap<Url, File>` modelled as an
association list with replace-on-insert). -/
structure Files where
  files : List (Url × File)
  deriving DecidableEq, Repr

/-- `Files::add_file`. -/
def Files.add_file (s : Files) (uri : Url) (content : File) : Files :=
  ⟨insertPair s.files uri content⟩

/-- `Files::get_file` (also standing for the lookup step of
`Files::get_file_mut`). -/
def Files.get_file (s : Files) (uri : Url) : Option File :=
  lookupPair s.files uri

/-- `Files::remove_file`. -/
def Files.remove_file (s : Files) (uri : Url) : Files :=
  ⟨erasePair s.files uri⟩

/-- The `MarkdownLanguageServer` state: the document registry, the
current-file pointer, and — for the preview bridge — the list of texts
pushed to the preview transport so far, in delivery order. -/
structure ServerState where
  files : Files
  current_file : Option Url
  pushes : List (List Char)
  deriving DecidableEq, Repr

/-- `did_open`: insert the document, set the current file, push the opened
text to the preview server. -/
def did_open (st : ServerState) (uri : Url) (text : List Char) : ServerState :=
  { files := st.files.add_file uri (File.new text)
    current_file := some uri
    pushes := st.pushes ++ [text] }

/-- `did_change`.  A change event's batch is kept as the list of the
`text` fields of its `TextDocumentContentChangeEvent`s (the only field the
handler reads).  `debug_assert!(len > 0)` panics on an empty batch; an
unknown uri hits the `let`-`else` early return and changes nothing;
otherwise `swap_remove(len - 1)` takes the last edit's text, the file is
overwritten with it, the current file is set and the text is pushed to the
preview server. -/
def did_change (st : ServerState) (uri : Url)
    (content_changes : List (List Char)) : RustOutcome ServerState :=
  if content_changes.isEmpty then .panic
  else
    match st.files.get_file uri with
    | none => .ok st
    | some file =>
      let new_content := content_changes.getLastD []
      .ok { files := st.files.add_file uri (file.overwrite new_content)
            current_file := some uri
            pushes := st.pushes ++ [new_content] }

/-- `did_close`: remove the entry; the current-file pointer and the
preview are left untouched. -/
def did_close (st : ServerState) (uri : Url) : ServerState :=
  { st with files := st.files.remove_file uri }

/-- Deliver a sequence of change events for one document in order,
stopping at a panic. -/
def runChanges (uri : Url) :
    ServerState → List (List (List Char)) → RustOutcome ServerState
  | st, [] => .ok st
  | st, b :: bs =>
    match did_change st uri b with
    | .ok st2 => runChanges uri st2 bs
    | .panic => .panic

/-- The only `CompletionItemKind` the server ever produces is FILE. -/
inductive CompletionItemKind where
  | file
  deriving DecidableEq, Repr

/-- A completion item as the handler builds it: a label and a kind (the
remaining `lsp_types` fields stay at their defaults). -/
structure CompletionItem where
  label : String
  kind : Option CompletionItemKind
  deriving DecidableEq, Repr

/-- `lsp_types::CompletionList`. -/
structure CompletionList where
  is_incomplete : Bool
  items : List CompletionItem
  deriving DecidableEq, Repr

/-- `CompletionResponse::List` is the only constructor the server uses. -/
inductive CompletionResponse where
  | list : CompletionList → CompletionResponse
  deriving DecidableEq, Repr

/-- The `jsonrpc::ErrorCode`s the server constructs. -/
inductive ErrorCode where
  | InvalidParams
  | InternalError
  deriving DecidableEq, Repr

/-- Outcome of a request handler: a protocol result, a protocol error, or
a panic. -/
inductive LspResult (α : Type) where
  | ok : α → LspResult α
  | err : ErrorCode → LspResult α
  | panic : LspResult α
  deriving DecidableEq, Repr

/-- `Path::parent` on a component list: `None` for an empty or bare-root
path, else the path without its last component. -/
def pathParent (p : List String) : Option (List String) :=
  match p with
  | [] => none
  | _ => some p.dropLast

/-- Rust `Path::extension` on a file name: the portion after the final `.`
that is not the first character; `none` when there is no such `.`. -/
def fileNameExt (name : String) : Option String :=
  let t := name.toList.drop 1
  let afterRev := t.reverse.takeWhile (fun c => c ≠ '.')
  if afterRev.length = t.length then none
  else some (String.mk afterRev.reverse)

/-- `e.path().extension()`: the extension of the entry's last component. -/
def pathExt (p : List String) : Option String :=
  match p.getLast? with
  | none => none
  | some name => fileNameExt name

/-- Build one completion item per walked entry: the label is the entry's
path relative to `root` (`strip_prefix(root).unwrap()`, components joined
by `/` as `to_string_lossy` prints them) and the kind is FILE; the result
is `none` when some entry is not under `root` (that `unwrap` panics). -/
def mkItems (root : List String) : List (List String) → Option (List CompletionItem)
  | [] => some []
  | e :: rest =>
    if e.take root.length = root then
      match mkItems root rest with
      | none => none
      | some items =>
        some ({ label := String.intercalate "/" (e.drop root.length)
                kind := some CompletionItemKind.file } :: items)
    else none

/-- `completion` from `language-server/src/main.rs`, the `WalkDir`
traversal supplied as `walk`: unknown uri is InvalidParams, an
out-of-range line is InvalidParams, a cursor past the end of its line
panics; with the trigger (`starts_with("[[") && !ends_with(']')`) unmet
the result is `None`; with it met, no current file or a parentless current
path is InternalError, and otherwise the entries under the parent with
extension `md` become the items of a non-incomplete list. -/
def completion (walk : List String → List (List String))
    (st : ServerState) (uri : Url) (pos : Position) :
    LspResult (Option CompletionResponse) :=
  match st.files.get_file uri with
  | none => .err .InvalidParams
  | some file =>
    match get_current_word file.content pos with
    | .panic => .panic
    | .ok none => .err .InvalidParams
    | .ok (some current_word) =>
      if current_word.take 2 = ['[', '['] ∧ current_word.getLast? ≠ some ']' then
        match st.current_file with
        | none => .err .InternalError
        | some current_path =>
          match pathParent current_path.path with
          | none => .err .InternalError
          | some path_parent =>
            match mkItems path_parent
                ((walk path_parent).filter (fun e => pathExt e == some "md")) with
            | none => .panic
            | some items =>
              .ok (some (.list { is_incomplete := false, items := items }))
      else .ok none

/-- The request fields of `GotoDefinitionParams` the contract names; the
handler ignores them. -/
structure GotoDefinitionParams where
  uri : Url
  pos : Position
  deriving DecidableEq, Repr

/-- The handler never builds a response, so the type is empty here. -/
inductive GotoDefinitionResponse where

/-- `goto_definition`: the body is `todo!()`, which panics. -/
def goto_definition (_self : ServerState) (_params : GotoDefinitionParams) :
    LspResult (Option GotoDefinitionResponse) :=
  .panic

/-! Concrete sample data shared by the witnesses and counterexamples. -/

/-- The reference text of the repository's own test. -/
def testDoc : List Char :=
  "this is a sentence\nThis is another line. Here is a word.".toList

/-- A sample document uri, `notes/a.md`. -/
def uriA : Url := ⟨["notes", "a.md"]⟩

/-- The sample document holding the reference text. -/
def fileA : File := File.new testDoc

/-- A server state with `notes/a.md` open, current, and no pushes yet. -/
def st0 : ServerState := ⟨⟨[(uriA, fileA)]⟩, some uriA, []⟩

/-- A sample document whose cursor word `[[fo` meets the trigger. -/
def fileB : File := File.new "[[fo".toList

/-- A server state with `notes/a.md` open and current, holding `fileB`. -/
def stB : ServerState := ⟨⟨[(uriA, fileB)]⟩, some uriA, []⟩

/-- A server state like `stB` but with no current file set. -/
def stC : ServerState := ⟨⟨[(uriA, fileB)]⟩, none, []⟩

/-- A sample filesystem walk under `notes`: the directory itself, three
markdown files (one nested), a subdirectory and a picture. -/
def walk0 : List String → List (List String) := fun root =>
  if root = ["notes"] then
    [["notes"], ["notes", "a.md"], ["notes", "b.md"], ["notes", "sub"],
     ["notes", "sub", "c.md"], ["notes", "img.png"]]
  else []

/-- A server state with no document open. -/
def stEmpty : ServerState := ⟨⟨[]⟩, none, []⟩

/-! Helper lemmas. -/

theorem lookup_insertPair_self (m : List (Url × File)) (u : Url) (f : File) :
    lookupPair (insertPair m u f) u = some f := by
  induction m with
  | nil => simp [insertPair, lookupPair]
  | cons p rest ih =>
    obtain ⟨k, v⟩ := p
    by_cases h : k = u
    · simp [insertPair, lookupPair, h]
    · simp [insertPair, lookupPair, h, ih]

/-! Claims about the document store and the preview bridge. -/

/-- Claim C1: a change event with a non-empty batch on an open document
stores exactly the last edit's full text, and the earlier edits of the
batch have no effect: any batch with the same last edit produces the very
same outcome. -/
theorem did_change_applies_last_edit
    (st : ServerState) (uri : Url) (changes : List (List Char)) (f : File)
    (hne : changes ≠ []) (hopen : st.files.get_file uri = some f) :
    (∃ st2, did_change st uri changes = .ok st2 ∧
      st2.files.get_file uri = some (File.new (changes.getLastD []))) ∧
    (∀ changes2 : List (List Char), changes2 ≠ [] →
      changes2.getLastD [] = changes.getLastD [] →
      did_change st uri changes2 = did_change st uri changes) := by
  obtain ⟨a, as, rfl⟩ := List.exists_cons_of_ne_nil hne
  constructor
  · refine ⟨{ files := st.files.add_file uri (f.overwrite ((a :: as).getLastD []))
              current_file := some uri
              pushes := st.pushes ++ [(a :: as).getLastD []] }, ?_, ?_⟩
    · simp [did_change, hopen]
    · simp [Files.get_file, Files.add_file, lookup_insertPair_self,
        File.overwrite, File.new]
  · intro changes2 h2 heq
    obtain ⟨b, bs, rfl⟩ := List.exists_cons_of_ne_nil h2
    simp only [List.getLastD_eq_getLast?] at heq
    simp [did_change, hopen, heq]

/-- Witness for C1 at a concrete state and batch. -/
theorem did_change_applies_last_edit_witness :
    (∃ st2, did_change st0 uriA [['b'], ['c']] = .ok st2 ∧
      st2.files.get_file uriA =
        some (File.new (([['b'], ['c']] : List (List Char)).getLastD []))) ∧
    (∀ changes2 : List (List Char), changes2 ≠ [] →
      changes2.getLastD [] = ([['b'], ['c']] : List (List Char)).getLastD [] →
      did_change st0 uriA changes2 = did_change st0 uriA [['b'], ['c']]) :=
  did_change_applies_last_edit st0 uriA [['b'], ['c']] fileA (by decide) rfl

/-- Claim C5: a change event for a uri that is absent from the store — the
lookup that stands for `get_file_mut` yields `none`, the NotFound signal —
is a benign no-op: no panic, and the whole state (registry, pointer,
pushes) is returned unchanged. -/
theorem did_change_unknown_uri_noop
    (st : ServerState) (uri : Url) (changes : List (List Char))
    (hne : changes ≠ []) (habsent : st.files.get_file uri = none) :
    did_change st uri changes = .ok st := by
  obtain ⟨a, as, rfl⟩ := List.exists_cons_of_ne_nil hne
  simp [did_change, habsent]

/-- Witness for C5 on the empty store. -/
theorem did_change_unknown_uri_noop_witness :
    did_change stEmpty uriA [['x']] = .ok stEmpty :=
  did_change_unknown_uri_noop stEmpty uriA [['x']] (by decide) rfl

/-- Claim C9: open then get returns the opened content, whether or not the
uri was already present (an open on a present uri silently overwrites),
and `did_open` is total — it has no error outcome at all. -/
theorem open_then_get (st : ServerState) (uri : Url) (text : List Char) :
    (did_open st uri text).files.get_file uri = some (File.new text) := by
  simp [did_open, Files.add_file, Files.get_file, lookup_insertPair_self]

/-- Claim C8: a sequence of N accepted change events for one open document
delivers exactly N pushes to the preview transport, appended in acceptance
order, each carrying the full text its batch stores (the batch's last
edit); none is dropped or reordered. -/
theorem preview_pushes_in_order
    (uri : Url) (st : ServerState) (batches : List (List (List Char)))
    (f : File) (hopen : st.files.get_file uri = some f)
    (hne : ∀ b ∈ batches, b ≠ []) :
    ∃ st2, runChanges uri st batches = .ok st2 ∧
      st2.pushes = st.pushes ++ batches.map (fun b => b.getLastD []) := by
  induction batches generalizing st f with
  | nil => exact ⟨st, rfl, by simp [runChanges]⟩
  | cons b bs ih =>
    obtain ⟨a, as, rfl⟩ := List.exists_cons_of_ne_nil (hne b (by simp))
    have hstep : did_change st uri (a :: as) =
        .ok { files := st.files.add_file uri (f.overwrite ((a :: as).getLastD []))
              current_file := some uri
              pushes := st.pushes ++ [(a :: as).getLastD []] } := by
      simp [did_change, hopen]
    have hopen2 :
        (Files.add_file st.files uri (f.overwrite ((a :: as).getLastD []))).get_file uri
          = some (f.overwrite ((a :: as).getLastD [])) := by
      simp [Files.add_file, Files.get_file, lookup_insertPair_self]
    obtain ⟨st2, hrun, hpush⟩ :=
      ih { files := st.files.add_file uri (f.overwrite ((a :: as).getLastD []))
           current_file := some uri
           pushes := st.pushes ++ [(a :: as).getLastD []] }
        (f.overwrite ((a :: as).getLastD []))
        hopen2 (fun x hx => hne x (List.mem_cons_of_mem _ hx))
    refine ⟨st2, ?_, ?_⟩
    · simp only [runChanges, hstep, hrun]
    · rw [hpush]
      simp

/-- Witness for C8: two accepted batches produce the two pushes in order. -/
theorem preview_pushes_in_order_witness :
    ∃ st2, runChanges uriA st0 [[['x']], [['y'], ['z']]] = .ok st2 ∧
      st2.pushes = st0.pushes ++
        ([[['x']], [['y'], ['z']]] : List (List (List Char))).map
          (fun b => b.getLastD []) :=
  preview_pushes_in_order uriA st0 [[['x']], [['y'], ['z']]] fileA rfl
    (by decide)

/-! Cursor-word extraction (claim C3). -/

theorem dropWhile_head_false {α : Type} {p : α → Bool} :
    ∀ {r : List α} {c : α} {cs : List α}, r.dropWhile p = c :: cs → p c = false := by
  intro r
  induction r with
  | nil => intro c cs h; simp [List.dropWhile] at h
  | cons a as ih =>
    intro c cs h
    rw [List.dropWhile_cons] at h
    by_cases hpa : p a = true
    · rw [if_pos hpa] at h
      exact ih h
    · rw [if_neg hpa] at h
      injection h with h1 _
      subst h1
      simpa using hpa

/-- Evaluation of `get_current_word` at an in-bounds position. -/
theorem get_current_word_eval
    (document : List Char) (lp cp : Nat) (line : List Char)
    (hline : (rustLines document)[lp]? = some line) (hcp : cp ≤ line.length) :
    get_current_word document ⟨lp, cp⟩ = .ok (some ((line.take cp).drop
      (cp - ((line.take cp).reverse.takeWhile (fun c => !c.isWhitespace)).length))) := by
  unfold get_current_word
  rw [hline]
  simp [hcp]

/-- Claim C3: at every in-bounds position the extracted current word is
the maximal run of non-whitespace characters of the line that ends exactly
at the cursor: it is a suffix of the part of the line strictly before the
cursor (so no character at or after the cursor is ever included), all its
characters are non-whitespace, and what precedes it is either empty or
ends in a whitespace character; on the reference text, position (0,1)
yields "t" and positions (0,0) and (1,8) yield the empty word. -/
theorem get_current_word_characterization :
    (∀ (document : List Char) (lp cp : Nat) (line : List Char),
      (rustLines document)[lp]? = some line → cp ≤ line.length →
      ∃ w pre : List Char,
        get_current_word document ⟨lp, cp⟩ = .ok (some w) ∧
        line.take cp = pre ++ w ∧
        (∀ c ∈ w, ¬ c.isWhitespace) ∧
        (pre = [] ∨ ∃ pre2 c, pre = pre2 ++ [c] ∧ c.isWhitespace)) ∧
    get_current_word testDoc ⟨0, 1⟩ = .ok (some ['t']) ∧
    get_current_word testDoc ⟨0, 0⟩ = .ok (some []) ∧
    get_current_word testDoc ⟨1, 8⟩ = .ok (some []) := by
  refine ⟨?_, by decide, by decide, by decide⟩
  intro document lp cp line hline hcp
  have hprlen : (line.take cp).length = cp := by
    simp [List.length_take, Nat.min_eq_left hcp]
  have hdecomp :
      ((line.take cp).reverse.dropWhile (fun c => !c.isWhitespace)).reverse ++
        ((line.take cp).reverse.takeWhile (fun c => !c.isWhitespace)).reverse
        = line.take cp := by
    rw [← List.reverse_append, List.takeWhile_append_dropWhile, List.reverse_reverse]
  have hsum :
      ((line.take cp).reverse.takeWhile (fun c => !c.isWhitespace)).length +
        ((line.take cp).reverse.dropWhile (fun c => !c.isWhitespace)).length = cp := by
    rw [← List.length_append, List.takeWhile_append_dropWhile,
      List.length_reverse, hprlen]
  have hdropeq :
      (line.take cp).drop
          (cp - ((line.take cp).reverse.takeWhile (fun c => !c.isWhitespace)).length)
        = ((line.take cp).reverse.takeWhile (fun c => !c.isWhitespace)).reverse := by
    have h1 : cp - ((line.take cp).reverse.takeWhile (fun c => !c.isWhitespace)).length
        = ((line.take cp).reverse.dropWhile (fun c => !c.isWhitespace)).reverse.length := by
      rw [List.length_reverse]
      omega
    have h2 := List.drop_left
      ((line.take cp).reverse.dropWhile (fun c => !c.isWhitespace)).reverse
      ((line.take cp).reverse.takeWhile (fun c => !c.isWhitespace)).reverse
    rw [hdecomp] at h2
    rw [h1]
    exact h2
  refine ⟨((line.take cp).reverse.takeWhile (fun c => !c.isWhitespace)).reverse,
    ((line.take cp).reverse.dropWhile (fun c => !c.isWhitespace)).reverse,
    ?_, hdecomp.symm, ?_, ?_⟩
  · rw [get_current_word_eval document lp cp line hline hcp, hdropeq]
  · intro c hc
    have hmem := List.mem_takeWhile_imp (List.mem_reverse.mp hc)
    simpa using hmem
  · rcases hdw : (line.take cp).reverse.dropWhile (fun c => !c.isWhitespace) with _ | ⟨c, cs⟩
    · left
      simp [hdw]
    · right
      refine ⟨cs.reverse, c, by simp [hdw], ?_⟩
      have := dropWhile_head_false hdw
      simpa using this

/-! Completion (claims C2, C4, C6, C10) and goto-definition (claim C7). -/

theorem mkItems_eq_map (root : List String) :
    ∀ entries : List (List String),
      (∀ e ∈ entries, e.take root.length = root) →
      mkItems root entries = some (entries.map (fun e =>
        { label := String.intercalate "/" (e.drop root.length)
          kind := some CompletionItemKind.file })) := by
  intro entries
  induction entries with
  | nil => intro _; simp [mkItems]
  | cons e rest ih =>
    intro h
    have he : e.take root.length = root := h e (by simp)
    have hrest := ih (fun x hx => h x (by simp [hx]))
    simp [mkItems, he, hrest]

/-- Evaluation of `completion` when the trigger condition is met and the
current file resolves to a parent directory whose walked entries all lie
under it. -/
theorem completion_triggered_eq
    (walk : List String → List (List String)) (st : ServerState) (uri : Url)
    (pos : Position) (f : File) (w : List Char) (active : Url)
    (par : List String)
    (hfile : st.files.get_file uri = some f)
    (hword : get_current_word f.content pos = .ok (some w))
    (ht1 : w.take 2 = ['[', '['])
    (ht2 : w.getLast? ≠ some ']')
    (hactive : st.current_file = some active)
    (hpar : pathParent active.path = some par)
    (hwalk : ∀ e ∈ walk par, e.take par.length = par) :
    completion walk st uri pos = .ok (some (.list
      { is_incomplete := false
        items := ((walk par).filter (fun e => pathExt e == some "md")).map
          (fun e => { label := String.intercalate "/" (e.drop par.length)
                      kind := some CompletionItemKind.file }) })) := by
  have hitems := mkItems_eq_map par
    ((walk par).filter (fun e => pathExt e == some "md"))
    (fun e he => hwalk e (List.mem_of_mem_filter he))
  unfold completion
  rw [hfile]
  dsimp only
  rw [hword]
  dsimp only
  rw [if_pos ⟨ht1, ht2⟩]
  rw [hactive]
  dsimp only
  rw [hpar]
  dsimp only
  rw [hitems]

/-- Evaluation of `completion` when the trigger condition is not met. -/
theorem completion_not_triggered_eq
    (walk : List String → List (List String)) (st : ServerState) (uri : Url)
    (pos : Position) (f : File) (w : List Char)
    (hfile : st.files.get_file uri = some f)
    (hword : get_current_word f.content pos = .ok (some w))
    (hnt : ¬(w.take 2 = ['[', '['] ∧ w.getLast? ≠ some ']')) :
    completion walk st uri pos = .ok none := by
  unfold completion
  rw [hfile]
  dsimp only
  rw [hword]
  dsimp only
  rw [if_neg hnt]

/-- Claim C2: on a known document at an in-bounds position, with an active
document resolving to a parent directory, a current word starting with
`[[` and not ending in `]` yields a non-null, non-incomplete list of
exactly the walked entries with extension `md` under that parent, each
labelled by its path relative to the parent with kind FILE; a current word
missing the trigger yields no completions (`none`), not an error. -/
theorem completion_wiki_link_spec
    (walk : List String → List (List String)) (st : ServerState) (uri : Url)
    (pos : Position) (f : File) (w : List Char) (active : Url)
    (par : List String)
    (hfile : st.files.get_file uri = some f)
    (hword : get_current_word f.content pos = .ok (some w))
    (hactive : st.current_file = some active)
    (hpar : pathParent active.path = some par)
    (hwalk : ∀ e ∈ walk par, e.take par.length = par) :
    (w.take 2 = ['[', '['] → w.getLast? ≠ some ']' →
      completion walk st uri pos = .ok (some (.list
        { is_incomplete := false
          items := ((walk par).filter (fun e => pathExt e == some "md")).map
            (fun e => { label := String.intercalate "/" (e.drop par.length)
                        kind := some CompletionItemKind.file }) }))) ∧
    (¬(w.take 2 = ['[', '['] ∧ w.getLast? ≠ some ']') →
      completion walk st uri pos = .ok none) :=
  ⟨fun ht1 ht2 => completion_triggered_eq walk st uri pos f w active par
      hfile hword ht1 ht2 hactive hpar hwalk,
    fun hnt => completion_not_triggered_eq walk st uri pos f w hfile hword hnt⟩

/-- Witness for C2: word `[[fo` lists `a.md`, `b.md` and `sub/c.md`; the
second conjunct instantiates the no-trigger case. -/
theorem completion_wiki_link_spec_witness :
    ((("[[fo".toList).take 2 = ['[', '['] →
      ("[[fo".toList).getLast? ≠ some ']' →
      completion walk0 stB uriA ⟨0, 4⟩ = .ok (some (.list
        { is_incomplete := false
          items := ((walk0 ["notes"]).filter
              (fun e => pathExt e == some "md")).map
            (fun e =>
              { label := String.intercalate "/"
                  (e.drop (["notes"] : List String).length)
                kind := some CompletionItemKind.file }) }))) ∧
    (¬(("[[fo".toList).take 2 = ['[', '['] ∧
        ("[[fo".toList).getLast? ≠ some ']') →
      completion walk0 stB uriA ⟨0, 4⟩ = .ok none)) :=
  completion_wiki_link_spec walk0 stB uriA ⟨0, 4⟩ fileB ("[[fo".toList)
    uriA ["notes"] rfl (by decide) rfl rfl (by decide)

/-- Claim C10: when the active document is itself a markdown entry under
the resolved parent, the returned items include the active document's own
file, labelled by its relative path — the scan does not exclude the
document being edited. -/
theorem completion_includes_active_document
    (walk : List String → List (List String)) (st : ServerState) (uri : Url)
    (pos : Position) (f : File) (w : List Char) (active : Url)
    (par : List String)
    (hfile : st.files.get_file uri = some f)
    (hword : get_current_word f.content pos = .ok (some w))
    (ht1 : w.take 2 = ['[', '['])
    (ht2 : w.getLast? ≠ some ']')
    (hactive : st.current_file = some active)
    (hpar : pathParent active.path = some par)
    (hwalk : ∀ e ∈ walk par, e.take par.length = par)
    (hself : active.path ∈ walk par)
    (hmd : pathExt active.path = some "md") :
    ∃ cl : CompletionList, completion walk st uri pos = .ok (some (.list cl)) ∧
      { label := String.intercalate "/" (active.path.drop par.length)
        kind := some CompletionItemKind.file } ∈ cl.items := by
  refine ⟨_, completion_triggered_eq walk st uri pos f w active par
    hfile hword ht1 ht2 hactive hpar hwalk, ?_⟩
  exact List.mem_map_of_mem _ (List.mem_filter.mpr ⟨hself, by simp [hmd]⟩)

/-- Witness for C10: the active document `notes/a.md` appears among its
own completion candidates, labelled `a.md`. -/
theorem completion_includes_active_document_witness :
    ∃ cl : CompletionList,
      completion walk0 stB uriA ⟨0, 4⟩ = .ok (some (.list cl)) ∧
      { label := String.intercalate "/"
          (uriA.path.drop (["notes"] : List String).length)
        kind := some CompletionItemKind.file } ∈ cl.items :=
  completion_includes_active_document walk0 stB uriA ⟨0, 4⟩ fileB
    ("[[fo".toList) uriA ["notes"] rfl (by decide) (by decide) (by decide)
    rfl rfl (by decide) (by decide) (by decide)

/-- Claim C6: with the trigger met, a missing active document, or an
active document whose path has no filesystem parent, makes the request
fail with the reported InternalError — no panic. -/
theorem completion_missing_active_internal_error
    (walk : List String → List (List String)) (st : ServerState) (uri : Url)
    (pos : Position) (f : File) (w : List Char)
    (hfile : st.files.get_file uri = some f)
    (hword : get_current_word f.content pos = .ok (some w))
    (ht1 : w.take 2 = ['[', '['])
    (ht2 : w.getLast? ≠ some ']')
    (hmiss : st.current_file = none ∨
      ∃ active, st.current_file = some active ∧ pathParent active.path = none) :
    completion walk st uri pos = .err .InternalError := by
  unfold completion
  rw [hfile]
  dsimp only
  rw [hword]
  dsimp only
  rw [if_pos ⟨ht1, ht2⟩]
  rcases hmiss with h | ⟨active, ha, hp⟩
  · rw [h]
  · rw [ha]
    dsimp only
    rw [hp]

/-- Witness for C6: no active document set. -/
theorem completion_missing_active_internal_error_witness :
    completion walk0 stC uriA ⟨0, 4⟩ = .err .InternalError :=
  completion_missing_active_internal_error walk0 stC uriA ⟨0, 4⟩ fileB
    ("[[fo".toList) rfl (by decide) (by decide) (by decide) (Or.inl rfl)

/-- Claim C4 evidence: a cursor character past the end of its line makes
the handler panic (the slice `line[..character]` is out of bounds) instead
of reporting an error, while an out-of-range line is reported as
InvalidParams — the code meets the claim on bad lines but panics on bad
characters. -/
theorem completion_malformed_position_behaviour :
    completion walk0 st0 uriA ⟨0, 100⟩ = .panic ∧
    completion walk0 st0 uriA ⟨99, 0⟩ = .err .InvalidParams := by
  exact ⟨by decide, by decide⟩

/-- Claim C7 evidence: the `goto_definition` handler is `todo!()`: every
request panics instead of producing a clean not-implemented error
response. -/
theorem goto_definition_request_panics :
    goto_definition st0 { uri := uriA, pos := ⟨0, 0⟩ } = .panic := rfl

end NoteLs
